import Mathlib

set_option maxRecDepth 4000

/-!
# Shallow embedding of `machine_learning_client/ml.py`

Waveform samples, times, frequencies, thresholds and tempi are modelled
as rationals.  External library calls are passed in as parameters of the
embedded functions: `sq` abstracts the numpy square root, `hz2nn`
abstracts `fun f => int (pretty_midi.hz_to_note_number f)`, and
`nameToNumber` abstracts `fun s => int (pretty_midi.note_name_to_number s)`.
-/

/-- Python `range(start, stop, step)` for a positive `step`, unrolled on
fuel `stop - start`; every iteration advances `start` by `step ≥ 1`, so
this fuel is always sufficient. -/
def pyRangeAux : ℕ → ℕ → ℕ → ℕ → List ℕ
  | 0, _, _, _ => []
  | fuel + 1, start, stop, step =>
    if start < stop then start :: pyRangeAux fuel (start + step) stop step else []

/-- Python `range(start, stop, step)` (positive `step`). -/
def pyRange (start stop step : ℕ) : List ℕ :=
  pyRangeAux (stop - start) start stop step

/-- Python `int(t)` on a rational: truncation toward zero, which is
exactly `Int` t-division of the numerator by the denominator. -/
def pyInt (t : ℚ) : ℤ := t.num / (t.den : ℤ)

/-- Python `int(t * sr)` as a sample index; the onset times produced by
the onset detector are nonnegative, so `toNat` is faithful there. -/
def toSample (t : ℚ) (sr : ℕ) : ℕ := (pyInt (t * (sr : ℚ))).toNat

/-- Python slice `l[a:b]` for `0 ≤ a ≤ b`. -/
def pySlice {α : Type} (l : List α) (a b : ℕ) : List α :=
  (l.drop a).take (b - a)

/-- A pitch frame `{time, note}` as consumed by the smoothing and
collapsing stages of `ml.py` (the confidence field is never read there
and is omitted). -/
structure NoteRec where
  time : ℚ
  note : String

/-- `calculate_amplitude_envelope` (ml.py lines 89-96): one RMS value
per hop, each over the window `[i, i+frame_size)` clipped to the
available samples.  `sq` abstracts `np.sqrt`; `np.mean(frame**2)` is the
sum of the squared samples divided by the frame length. -/
def calculate_amplitude_envelope (sq : ℚ → ℚ) (y : List ℚ) (frame_size hop_length : ℕ) : List ℚ :=
  (pyRange 0 y.length hop_length).map fun i =>
    let frame := (y.drop i).take frame_size
    sq ((frame.map fun a => a ^ 2).sum / (frame.length : ℚ))

/-- Append a sharp sign to a pitch-class letter. -/
def sharp (s : String) : String := s ++ "#"

/-- The semitone table used by `note_number_to_name` in pretty_midi. -/
def noteNameTable : List String :=
  ["C", sharp "C", "D", sharp "D", "E", "F", sharp "F",
   "G", sharp "G", "A", sharp "A", "B"]

/-- Modelled from the external `pretty_midi.note_number_to_name` for an
integer note number: semitone name indexed by `n mod 12` (Python `%`,
i.e. `emod`) followed by the octave `n // 12 - 1` (Python floor
division, i.e. `fdiv`). -/
def note_number_to_name (n : ℤ) : String :=
  noteNameTable.getD (n.emod 12).toNat "C" ++ toString (n.fdiv 12 - 1)

/-- `frequency_to_note_name` (ml.py lines 103-112).  `hz2nn` abstracts
`fun f => int (pretty_midi.hz_to_note_number f)`, the external
logarithmic frequency-to-note-number mapping followed by `int`
truncation. -/
def frequency_to_note_name (hz2nn : ℚ → ℤ) (frequency : ℚ) : Option String :=
  if frequency ≤ 0 then none
  else some (note_number_to_name (hz2nn frequency))

/-- One Python dict update `note_counts[n] = note_counts.get(n, 0) + 1`
on an insertion-ordered association list: an existing key is bumped in
place, a new key is appended at the end. -/
def bumpCount : List (String × ℕ) → String → List (String × ℕ)
  | [], n => [(n, 1)]
  | (k, c) :: rest, n =>
    if k = n then (k, c + 1) :: rest else (k, c) :: bumpCount rest n

/-- The `note_counts` dict built inside `smooth_pitch_data`
(ml.py lines 153-155), keyed in first-encountered insertion order. -/
def noteCountsOf (notes : List String) : List (String × ℕ) :=
  notes.foldl bumpCount []

/-- Python `max(note_counts, key=note_counts.get)`: scan the keys in
insertion order keeping the current maximum, replacing it only on a
strictly larger count, so the first key attaining the maximal count
wins. -/
def argmaxFirst : List (String × ℕ) → String
  | [] => ""
  | p :: rest => (rest.foldl (fun acc q => if acc.2 < q.2 then q else acc) p).1

/-- `smooth_pitch_data` (ml.py lines 144-159).  `start` uses natural
subtraction, which matches the Python `max(i - window_size // 2, 0)`. -/
def smooth_pitch_data (notes_data : List NoteRec) (window_size : ℕ) : List NoteRec :=
  (List.range notes_data.length).map fun i =>
    let start := i - window_size / 2
    let stop := min (i + window_size / 2 + 1) notes_data.length
    let window := pySlice notes_data start stop
    ⟨(window.map fun nr => nr.time).sum / (window.length : ℚ),
     argmaxFirst (noteCountsOf (window.map fun nr => nr.note))⟩

/-- The loop of `filter_and_combine_notes` (ml.py lines 162-178), with
state `last_note` and accumulator `filtered_notes`; the emitted
`{note: v}` records are modelled by their note string. -/
def filterCombineLoop : List NoteRec → Option String → List String → List String
  | [], last, acc =>
    match last with
    | none => acc
    | some v => acc ++ [v]
  | nr :: rest, last, acc =>
    match last with
    | some l =>
      if nr.note ≠ l then filterCombineLoop rest (some nr.note) (acc ++ [l])
      else filterCombineLoop rest (some l) acc
    | none => filterCombineLoop rest (some nr.note) acc

/-- `filter_and_combine_notes` (ml.py lines 162-178). -/
def filter_and_combine_notes (notes_data : List NoteRec) : List String :=
  filterCombineLoop notes_data none []

/-- `process_notes` (ml.py lines 181-184): smoothing with the default
window size 5, then run collapsing. -/
def process_notes (notes_data : List NoteRec) : List String :=
  filter_and_combine_notes (smooth_pitch_data notes_data 5)

/-- `estimate_note_durations` (ml.py lines 199-232).  The envelope is
invoked as `calculate_amplitude_envelope(y, sr)`, i.e. with frame size
`sr` and the default hop length 512.  For each onset but the last, the
scan walks from the onset sample toward the next onset sample in steps
of 512, stopping at the first sample whose envelope value drops below
the threshold; the last onset scans toward the end of the waveform. -/
def estimate_note_durations (sq : ℚ → ℚ) (onsets : List ℚ) (y : List ℚ) (sr : ℕ) (threshold : ℚ) : List ℚ :=
  let amp_env := calculate_amplitude_envelope sq y sr 512
  let min_duration : ℚ := 1 / 20
  let main := (List.range (onsets.length - 1)).map fun i =>
    let onset_sample := toSample (onsets.getD i 0) sr
    let next_onset_sample := toSample (onsets.getD (i + 1) 0) sr
    let end_sample :=
      ((pyRange onset_sample next_onset_sample 512).find? fun j =>
          decide (amp_env.getD (j / 512) 0 < threshold)).getD next_onset_sample
    max (((end_sample : ℚ) - (onset_sample : ℚ)) / (sr : ℚ)) min_duration
  let lastPart :=
    if 0 < onsets.length then
      let last_onset_sample := toSample (onsets.getD (onsets.length - 1) 0) sr
      let end_sample :=
        ((pyRange last_onset_sample y.length 512).find? fun j =>
            decide (amp_env.getD (j / 512) 0 < threshold)).getD y.length
      [max (((end_sample : ℚ) - (last_onset_sample : ℚ)) / (sr : ℚ)) min_duration]
    else []
  main ++ lastPart

/-- The sample indices `j` at which `estimate_note_durations` may read
`amp_env[j // 512]`: the scanned ranges of all of its loops (the actual
reads are a prefix of each range, stopping at the first break). -/
def duration_scan_samples (onsets : List ℚ) (yLen sr : ℕ) : List ℕ :=
  let main := (List.range (onsets.length - 1)).flatMap fun i =>
    pyRange (toSample (onsets.getD i 0) sr) (toSample (onsets.getD (i + 1) 0) sr) 512
  let lastPart :=
    if 0 < onsets.length then
      pyRange (toSample (onsets.getD (onsets.length - 1) 0) sr) yLen 512
    else []
  main ++ lastPart

/-- One `pretty_midi.Note`: velocity, pitch, start and end time (the
`end` field is embedded as `stop`). -/
structure MidiNote where
  velocity : ℕ
  pitch : ℤ
  start : ℚ
  stop : ℚ

/-- `create_midi_instrument` (ml.py lines 252-291).  `nameToNumber`
abstracts `fun s => int (pretty_midi.note_name_to_number s)`; the
stabilized-note records `{note: v}` are modelled by their note string.
The in-range `getD` defaults are never reached. -/
def create_midi_instrument (nameToNumber : String → ℤ) (filtered_notes : List String) (onsets durations : List ℚ) : List MidiNote :=
  let min_length := min (min filtered_notes.length onsets.length) durations.length
  (List.range min_length).map fun i =>
    ⟨100, nameToNumber (filtered_notes.getD i ""),
     onsets.getD i 0, onsets.getD i 0 + durations.getD i 0⟩

/-- The tempo normalisation performed by `create_midi`
(ml.py lines 299-306) before the MIDI object is built: a non-positive
tempo is replaced by 120.0. -/
def create_midi_tempo (tempo : ℚ) : ℚ :=
  if tempo ≤ 0 then 120 else tempo

/-- Outcome of the `/process` route: HTTP status code, response body,
and whether a MIDI artifact was created and stored. -/
structure RouteResponse where
  status : ℕ
  body : String
  midiStored : Bool

/-- The decision logic of the `process_data` route (ml.py lines
462-489), after the audio analyses have produced the raw pitch frames,
the onsets and the durations.  `storeResult` is the outcome of
`create_and_store_midi_in_s3`: `some url` on success, `none` modelling
the estimator/serialization failure paths that the route answers with
status 500. -/
def process_data (notes_data : List NoteRec) (onsets durations : List ℚ) (storeResult : Option String) : RouteResponse :=
  let processed_notes := process_notes notes_data
  if processed_notes = [] then
    ⟨400, "No musical notes detected in the audio. Please try recording again with clearer audio.", false⟩
  else if onsets.length = 0 ∨ durations.length = 0 then
    ⟨400, "Could not detect timing information. Please try recording again.", false⟩
  else
    match storeResult with
    | some url => ⟨200, url, true⟩
    | none => ⟨500, "MIDI generation failed", false⟩

/-- Specification-side: the largest multiplicity any value attains in
`l`. -/
def maxCount (l : List String) : ℕ :=
  (l.map fun n => l.count n).foldr max 0

/-- Specification-side majority with first-encountered tie-breaking:
the first element of `l` whose multiplicity in `l` is maximal. -/
def firstMax (l : List String) : String :=
  (l.find? fun n => l.count n == maxCount l).getD ""

/-- First-occurrence deduplication: the insertion order of the keys of
a Python dict filled from `l`. -/
def fdedup : List String → List String
  | [] => []
  | x :: xs => x :: fdedup (xs.filter fun y => y != x)
termination_by l => l.length
decreasing_by
  simp only [List.length_cons]
  exact Nat.lt_succ_of_le (List.length_filter_le _ _)

/-- Specification-side: maximum of the counts stored in an association
list. -/
def maxSnd (cs : List (String × ℕ)) : ℕ :=
  (cs.map fun p => p.2).foldr max 0

/-! ## Helper lemmas -/

theorem pyRangeAux_eq_range' (fuel start stop step : ℕ) (hst : 0 < step)
    (hfuel : stop - start ≤ fuel) :
    pyRangeAux fuel start stop step = List.range' start ((stop - start + step - 1) / step) step := by
  induction fuel generalizing start with
  | zero =>
    have h1 : stop ≤ start := by omega
    have h2 : stop - start = 0 := by omega
    rw [pyRangeAux, h2]
    have : (0 + step - 1) / step = 0 := Nat.div_eq_of_lt (by omega)
    rw [this]
    rfl
  | succ fuel ih =>
    rw [pyRangeAux]
    by_cases h : start < stop
    · rw [if_pos h]
      have hfuel' : stop - (start + step) ≤ fuel := by omega
      rw [ih (start + step) hfuel']
      have hg : 1 ≤ stop - start := by omega
      have hkey : (stop - start + step - 1) / step = (stop - (start + step) + step - 1) / step + 1 := by
        rcases le_or_lt (stop - start) step with hle | hlt
        · have h1 : stop - (start + step) = 0 := by omega
          rw [h1]
          have h2 : (0 + step - 1) / step = 0 := Nat.div_eq_of_lt (by omega)
          rw [h2]
          have h3 : 1 * step ≤ stop - start + step - 1 := by omega
          have h4 : stop - start + step - 1 < (1 + 1) * step := by omega
          rw [Nat.div_eq_of_lt_le h3 h4]
        · have h1 : stop - start + step - 1 = (stop - (start + step) + step - 1) + step := by omega
          rw [h1, Nat.add_div_right _ hst]
      rw [hkey]
      rfl
    · rw [if_neg h]
      have h2 : stop - start = 0 := by omega
      rw [h2]
      have : (0 + step - 1) / step = 0 := Nat.div_eq_of_lt (by omega)
      rw [this]
      rfl

theorem pyRange_eq_range' (start stop step : ℕ) (hst : 0 < step) :
    pyRange start stop step = List.range' start ((stop - start + step - 1) / step) step :=
  pyRangeAux_eq_range' _ _ _ _ hst le_rfl

theorem length_pyRange (start stop step : ℕ) (hst : 0 < step) :
    (pyRange start stop step).length = (stop - start + step - 1) / step := by
  rw [pyRange_eq_range' _ _ _ hst, List.length_range']

theorem lt_of_mem_pyRange {j start stop step : ℕ} (hst : 0 < step)
    (hj : j ∈ pyRange start stop step) : j < stop := by
  rw [pyRange_eq_range' _ _ _ hst, List.mem_range'] at hj
  obtain ⟨i, hi, rfl⟩ := hj
  have hn : 0 < (stop - start + step - 1) / step := by omega
  have hg : 0 < stop - start := by
    by_contra hg
    have : stop - start = 0 := by omega
    rw [this] at hn
    have : (0 + step - 1) / step = 0 := Nat.div_eq_of_lt (by omega)
    omega
  have h1 : step * (i + 1) ≤ step * ((stop - start + step - 1) / step) :=
    Nat.mul_le_mul_left step hi
  have h2 : step * ((stop - start + step - 1) / step) ≤ stop - start + step - 1 :=
    Nat.mul_div_le _ _
  have h3 : step * i + step ≤ stop - start + step - 1 := by
    calc step * i + step = step * (i + 1) := by ring
    _ ≤ _ := le_trans h1 h2
  omega

theorem length_amplitude_envelope (sq : ℚ → ℚ) (y : List ℚ) (F H : ℕ) (hH : 0 < H) :
    (calculate_amplitude_envelope sq y F H).length = (y.length + H - 1) / H := by
  rw [calculate_amplitude_envelope, List.length_map, length_pyRange _ _ _ hH, Nat.sub_zero]

/-! ## Claim theorems -/

/-- C5: `estimate_note_durations` produces exactly one duration per
onset: the returned list has the same length as the onset list (the
first `N - 1` entries come from the pairwise scan toward the following
onset, the last from the scan toward the end of the waveform; an empty
onset list yields an empty list). -/
theorem estimate_note_durations_length (sq : ℚ → ℚ) (onsets : List ℚ) (y : List ℚ)
    (sr : ℕ) (threshold : ℚ) :
    (estimate_note_durations sq onsets y sr threshold).length = onsets.length := by
  rw [estimate_note_durations]
  simp only [List.length_append, List.length_map, List.length_range]
  by_cases h : 0 < onsets.length
  · rw [if_pos h]
    simp only [List.length_cons, List.length_nil]
    omega
  · rw [if_neg h]
    simp only [List.length_nil]
    omega

/-- C4: every duration returned by `estimate_note_durations` is at
least `0.05 = 1/20` seconds, for every onset list, waveform, sample
rate and threshold — even when the envelope already falls below the
threshold at the onset sample itself, because each entry is clamped by
`max _ min_duration`. -/
theorem estimate_note_durations_floor (sq : ℚ → ℚ) (onsets : List ℚ) (y : List ℚ)
    (sr : ℕ) (threshold : ℚ) :
    ∀ d ∈ estimate_note_durations sq onsets y sr threshold, 1 / 20 ≤ d := by
  intro d hd
  rw [estimate_note_durations] at hd
  simp only [List.mem_append, List.mem_map, List.mem_range] at hd
  rcases hd with ⟨i, _, rfl⟩ | hd
  · exact le_max_right _ _
  · by_cases h : 0 < onsets.length
    · rw [if_pos h, List.mem_singleton] at hd
      rw [hd]
      exact le_max_right _ _
    · rw [if_neg h] at hd
      exact absurd hd (List.not_mem_nil d)

/-- C7: the tempo handed to MIDI creation is replaced by exactly 120
when it is non-positive, and passed through unchanged when positive. -/
theorem create_midi_tempo_spec (tempo : ℚ) :
    (tempo ≤ 0 → create_midi_tempo tempo = 120) ∧
    (0 < tempo → create_midi_tempo tempo = tempo) := by
  constructor
  · intro h
    rw [create_midi_tempo, if_pos h]
  · intro h
    rw [create_midi_tempo, if_neg (not_le.mpr h)]

theorem create_midi_tempo_spec_witness :
    ((-3 : ℚ) ≤ 0 ∧ create_midi_tempo (-3) = 120) ∧
    ((0 : ℚ) < 130 ∧ create_midi_tempo 130 = 130) :=
  ⟨⟨by norm_num, (create_midi_tempo_spec (-3)).1 (by norm_num)⟩,
   ⟨by norm_num, (create_midi_tempo_spec 130).2 (by norm_num)⟩⟩

/-- C8: `frequency_to_note_name` returns `none` ("no note") for every
frequency ≤ 0, is total (returns some note symbol) for every positive
frequency, and maps the 440 Hz reference to exactly "A4" (the external
`hz_to_note_number` yields exactly the integer note number 69 at
440 Hz). -/
theorem frequency_to_note_name_spec (hz2nn : ℚ → ℤ) (f : ℚ) :
    (f ≤ 0 → frequency_to_note_name hz2nn f = none) ∧
    (0 < f → (frequency_to_note_name hz2nn f).isSome = true) ∧
    (hz2nn 440 = 69 → frequency_to_note_name hz2nn 440 = some "A4") := by
  refine ⟨fun h => ?_, fun h => ?_, fun h => ?_⟩
  · rw [frequency_to_note_name, if_pos h]
  · rw [frequency_to_note_name, if_neg (not_le.mpr h)]
    rfl
  · rw [frequency_to_note_name, if_neg (by norm_num), h]
    have : note_number_to_name 69 = "A4" := by decide
    rw [this]

theorem frequency_to_note_name_spec_witness :
    ((-1 : ℚ) ≤ 0 ∧ frequency_to_note_name (fun _ => 69) (-1) = none) ∧
    ((0 : ℚ) < 440 ∧ (frequency_to_note_name (fun _ => 69) 440).isSome = true) ∧
    ((fun _ : ℚ => (69 : ℤ)) 440 = 69 ∧ frequency_to_note_name (fun _ => 69) 440 = some "A4") :=
  ⟨⟨by norm_num, (frequency_to_note_name_spec (fun _ => 69) (-1)).1 (by norm_num)⟩,
   ⟨by norm_num, (frequency_to_note_name_spec (fun _ => 69) 440).2.1 (by norm_num)⟩,
   ⟨rfl, (frequency_to_note_name_spec (fun _ => 69) 440).2.2 rfl⟩⟩

theorem estimate_note_durations_floor_witness :
    (1 / 20 : ℚ) ∈ estimate_note_durations (fun x => x) [0] [0] 44100 (1 / 40) ∧
    (1 / 20 : ℚ) ≤ 1 / 20 := by
  have hm : (1 / 20 : ℚ) ∈ estimate_note_durations (fun x => x) [0] [0] 44100 (1 / 40) := by
    norm_num [estimate_note_durations, calculate_amplitude_envelope, pyRange, pyRangeAux,
      toSample, pyInt, List.find?]
  exact ⟨hm, estimate_note_durations_floor (fun x => x) [0] [0] 44100 (1 / 40) _ hm⟩

theorem getD_map_range {α : Type} (f : ℕ → α) (n i : ℕ) (h : i < n) (d : α) :
    ((List.range n).map f).getD i d = f i := by
  simp [List.getD, List.getElem?_map, List.getElem?_range h]

theorem getD_map_range' {α : Type} (f : ℕ → α) (s n st i : ℕ) (h : i < n) (d : α) :
    ((List.range' s n st).map f).getD i d = f (s + st * i) := by
  simp [List.getD, List.getElem?_map, List.getElem?_range' _ _ h]

theorem getD_take {α : Type} (l : List α) (m i : ℕ) (h : i < m) (d : α) :
    (l.take m).getD i d = l.getD i d := by
  simp [List.getD, List.getElem?_take, h]

theorem getD_mem_of_lt {α : Type} (l : List α) (n : ℕ) (d : α) (h : n < l.length) :
    l.getD n d ∈ l := by
  rw [List.getD_eq_getElem l d h]
  exact List.getElem_mem h

/-- C1: `create_midi_instrument` truncates to the shortest input: with
stabilized notes of length `P`, onsets of length `Q`, durations of
length `R`, it emits exactly `min P (min Q R)` note events; the `i`-th
event has velocity 100, pitch given by the `i`-th stabilized note,
start `onset[i]` and end `onset[i] + duration[i]`; and entries beyond
the minimum have no effect (truncating all three inputs to the minimum
gives the same output). -/
theorem create_midi_instrument_spec (nameToNumber : String → ℤ) (ns : List String)
    (os ds : List ℚ) :
    (create_midi_instrument nameToNumber ns os ds).length
        = min (min ns.length os.length) ds.length ∧
    (∀ i, i < min (min ns.length os.length) ds.length →
      (create_midi_instrument nameToNumber ns os ds).getD i ⟨0, 0, 0, 0⟩ =
        ⟨100, nameToNumber (ns.getD i ""), os.getD i 0, os.getD i 0 + ds.getD i 0⟩) ∧
    create_midi_instrument nameToNumber
        (ns.take (min (min ns.length os.length) ds.length))
        (os.take (min (min ns.length os.length) ds.length))
        (ds.take (min (min ns.length os.length) ds.length)) =
      create_midi_instrument nameToNumber ns os ds := by
  refine ⟨?_, ?_, ?_⟩
  · rw [create_midi_instrument]
    simp [List.length_map, List.length_range]
  · intro i hi
    rw [create_midi_instrument]
    rw [getD_map_range _ _ _ hi]
  · rw [create_midi_instrument, create_midi_instrument]
    have hM : min (min (ns.take (min (min ns.length os.length) ds.length)).length
        (os.take (min (min ns.length os.length) ds.length)).length)
        (ds.take (min (min ns.length os.length) ds.length)).length
        = min (min ns.length os.length) ds.length := by
      simp only [List.length_take]
      omega
    rw [hM]
    apply List.map_congr_left
    intro i hi
    rw [List.mem_range] at hi
    rw [getD_take _ _ _ hi, getD_take _ _ _ hi, getD_take _ _ _ hi]

theorem create_midi_instrument_spec_witness :
    0 < min (min 2 2) 2 ∧
    (create_midi_instrument (fun _ => 60) ["A4", "B4"] [0, 1] [1, 1]).getD 0 ⟨0, 0, 0, 0⟩ =
      ⟨100, (fun _ : String => (60 : ℤ)) (["A4", "B4"].getD 0 ""), ([0, 1] : List ℚ).getD 0 0,
       ([0, 1] : List ℚ).getD 0 0 + ([1, 1] : List ℚ).getD 0 0⟩ :=
  ⟨by decide,
   (create_midi_instrument_spec (fun _ => 60) ["A4", "B4"] [0, 1] [1, 1]).2.1 0 (by decide)⟩

theorem chain'_append_singleton {α : Type} {R : α → α → Prop} {xs : List α} {a : α} (b : α)
    (h : List.Chain' R (xs ++ [a])) (hab : R a b) :
    List.Chain' R (xs ++ [a] ++ [b]) := by
  rw [List.chain'_append]
  refine ⟨h, List.chain'_singleton b, ?_⟩
  intro x hx y hy
  rw [List.getLast?_concat] at hx
  simp only [Option.mem_def, Option.some.injEq] at hx hy
  rw [List.head?_cons] at hy
  simp only [Option.some.injEq] at hy
  subst hx
  subst hy
  exact hab

theorem fcLoop_chain (rest : List NoteRec) : ∀ (l : String) (acc : List String),
    List.Chain' (· ≠ ·) (acc ++ [l]) →
    List.Chain' (· ≠ ·) (filterCombineLoop rest (some l) acc) := by
  induction rest with
  | nil =>
    intro l acc h
    simpa [filterCombineLoop] using h
  | cons nr rest ih =>
    intro l acc h
    simp only [filterCombineLoop]
    by_cases hne : nr.note ≠ l
    · rw [if_pos hne]
      exact ih nr.note (acc ++ [l]) (chain'_append_singleton nr.note h (fun he => hne he.symm))
    · rw [if_neg hne]
      exact ih l acc h

theorem fcLoop_const (rest : List NoteRec) : ∀ (l : String) (acc : List String),
    (∀ x ∈ rest, x.note = l) → filterCombineLoop rest (some l) acc = acc ++ [l] := by
  induction rest with
  | nil =>
    intro l acc _
    rfl
  | cons nr rest ih =>
    intro l acc hall
    have hnr : nr.note = l := hall nr (by simp)
    simp only [filterCombineLoop]
    rw [if_neg (by simp [hnr])]
    exact ih l acc fun x hx => hall x (by simp [hx])

theorem filter_and_combine_chain (nd : List NoteRec) :
    List.Chain' (· ≠ ·) (filter_and_combine_notes nd) := by
  cases nd with
  | nil => simp [filter_and_combine_notes, filterCombineLoop]
  | cons x rest =>
    rw [filter_and_combine_notes]
    simp only [filterCombineLoop]
    exact fcLoop_chain rest x.note [] (by simp)

/-- C2: the output of `filter_and_combine_notes` never contains two
adjacent equal notes; an empty input yields an empty output; an input
whose entries all share one note yields exactly one entry. -/
theorem filter_and_combine_notes_spec (nd : List NoteRec) :
    (∀ i, i + 1 < (filter_and_combine_notes nd).length →
      (filter_and_combine_notes nd).getD i "" ≠ (filter_and_combine_notes nd).getD (i + 1) "") ∧
    (nd = [] → filter_and_combine_notes nd = []) ∧
    (∀ v, nd ≠ [] → (∀ x ∈ nd, x.note = v) → filter_and_combine_notes nd = [v]) := by
  refine ⟨?_, ?_, ?_⟩
  · intro i h
    have hc := List.chain'_iff_get.mp (filter_and_combine_chain nd) i (by omega)
    rw [List.getD_eq_getElem _ _ (by omega : i < (filter_and_combine_notes nd).length),
      List.getD_eq_getElem _ _ h]
    simpa [List.get_eq_getElem] using hc
  · intro h
    subst h
    rfl
  · intro v hne hall
    cases nd with
    | nil => exact absurd rfl hne
    | cons x rest =>
      rw [filter_and_combine_notes]
      simp only [filterCombineLoop]
      have hx : x.note = v := hall x (by simp)
      rw [hx, fcLoop_const rest v [] fun z hz => hall z (by simp [hz])]
      rfl

theorem filter_and_combine_notes_spec_witness :
    (0 + 1 < (filter_and_combine_notes [⟨0, "A4"⟩, ⟨1, "B4"⟩]).length ∧
      (filter_and_combine_notes [⟨0, "A4"⟩, ⟨1, "B4"⟩]).getD 0 "" ≠
        (filter_and_combine_notes [⟨0, "A4"⟩, ⟨1, "B4"⟩]).getD 1 "") ∧
    (([] : List NoteRec) = [] ∧ filter_and_combine_notes [] = []) ∧
    (([⟨0, "C4"⟩] : List NoteRec) ≠ [] ∧ (∀ x ∈ ([⟨0, "C4"⟩] : List NoteRec), x.note = "C4") ∧
      filter_and_combine_notes [⟨0, "C4"⟩] = ["C4"]) := by
  have hlen : 0 + 1 < (filter_and_combine_notes [⟨0, "A4"⟩, ⟨1, "B4"⟩]).length := by
    simp [filter_and_combine_notes, filterCombineLoop]
  have hall : ∀ x ∈ ([⟨0, "C4"⟩] : List NoteRec), x.note = "C4" := by
    intro x hx
    rw [List.mem_singleton] at hx
    subst hx
    rfl
  refine ⟨⟨hlen, (filter_and_combine_notes_spec [⟨0, "A4"⟩, ⟨1, "B4"⟩]).1 0 hlen⟩,
    ⟨rfl, (filter_and_combine_notes_spec []).2.1 rfl⟩,
    ⟨by simp, hall, (filter_and_combine_notes_spec [⟨0, "C4"⟩]).2.2 "C4" (by simp) hall⟩⟩

/-- C6: for a waveform of length `L`, frame size `F` and hop `H > 0`,
`calculate_amplitude_envelope` returns exactly `⌈L / H⌉ = (L + H - 1) / H`
values; the `k`-th value is the (square root of the) mean square of the
window `[H * k, H * k + F)` clipped to the available samples; an empty
waveform yields an empty sequence. -/
theorem calculate_amplitude_envelope_spec (sq : ℚ → ℚ) (y : List ℚ) (F H : ℕ) (hH : 0 < H) :
    (calculate_amplitude_envelope sq y F H).length = (y.length + H - 1) / H ∧
    (∀ k, k < (y.length + H - 1) / H →
      (calculate_amplitude_envelope sq y F H).getD k 0 =
        sq (((((y.drop (H * k)).take F).map fun a => a ^ 2).sum) /
          ((((y.drop (H * k)).take F).length : ℚ)))) ∧
    (y = [] → calculate_amplitude_envelope sq y F H = []) := by
  refine ⟨length_amplitude_envelope _ _ _ _ hH, ?_, ?_⟩
  · intro k hk
    rw [calculate_amplitude_envelope, pyRange_eq_range' _ _ _ hH]
    simp only [Nat.sub_zero]
    rw [getD_map_range' _ _ _ _ _ hk]
    simp [Nat.zero_add]
  · intro h
    subst h
    rfl

theorem calculate_amplitude_envelope_spec_witness :
    (0 : ℕ) < 2 ∧
    (calculate_amplitude_envelope (fun x => x) [1, 2, 3] 2 2).length =
      (([1, 2, 3] : List ℚ).length + 2 - 1) / 2 ∧
    0 < (([1, 2, 3] : List ℚ).length + 2 - 1) / 2 ∧
    (calculate_amplitude_envelope (fun x => x) [1, 2, 3] 2 2).getD 0 0 =
      (fun x : ℚ => x) ((((([1, 2, 3] : List ℚ).drop (2 * 0)).take 2).map fun a => a ^ 2).sum /
        (((([1, 2, 3] : List ℚ).drop (2 * 0)).take 2).length : ℚ)) :=
  ⟨by decide, (calculate_amplitude_envelope_spec (fun x => x) [1, 2, 3] 2 2 (by decide)).1,
   by decide,
   (calculate_amplitude_envelope_spec (fun x => x) [1, 2, 3] 2 2 (by decide)).2.1 0 (by decide)⟩

/-- C9: in the processing route, an empty processed-note list, or an
empty onset or duration sequence, yields the user-correctable rejection
outcome: HTTP 400 with a retry message and no MIDI artifact created or
stored — distinct from the internal-failure outcome HTTP 500 used when
creating/storing the MIDI fails, and from the 200 success outcome. -/
theorem process_data_spec (nd : List NoteRec) (onsets durations : List ℚ)
    (store : Option String) :
    (process_notes nd = [] ∨ onsets = [] ∨ durations = [] →
      (process_data nd onsets durations store).status = 400 ∧
      (process_data nd onsets durations store).midiStored = false) ∧
    (process_notes nd ≠ [] → onsets ≠ [] → durations ≠ [] → store = none →
      (process_data nd onsets durations store).status = 500 ∧
      (process_data nd onsets durations store).midiStored = false) ∧
    (∀ url, process_notes nd ≠ [] → onsets ≠ [] → durations ≠ [] → store = some url →
      (process_data nd onsets durations store).status = 200 ∧
      (process_data nd onsets durations store).midiStored = true) := by
  refine ⟨?_, ?_, ?_⟩
  · intro h
    simp only [process_data]
    by_cases h1 : process_notes nd = []
    · rw [if_pos h1]
      exact ⟨rfl, rfl⟩
    · rw [if_neg h1]
      have h2 : onsets.length = 0 ∨ durations.length = 0 := by
        rcases h with h | h | h
        · exact absurd h h1
        · exact Or.inl (by simp [h])
        · exact Or.inr (by simp [h])
      rw [if_pos h2]
      exact ⟨rfl, rfl⟩
  · intro h1 h2 h3 h4
    subst h4
    simp only [process_data]
    rw [if_neg h1, if_neg (by simp [List.length_eq_zero, h2, h3])]
    exact ⟨rfl, rfl⟩
  · intro url h1 h2 h3 h4
    subst h4
    simp only [process_data]
    rw [if_neg h1, if_neg (by simp [List.length_eq_zero, h2, h3])]
    exact ⟨rfl, rfl⟩

theorem process_data_spec_witness :
    ((process_notes [] = [] ∨ ([] : List ℚ) = [] ∨ ([] : List ℚ) = []) ∧
      (process_data [] [] [] none).status = 400 ∧
      (process_data [] [] [] none).midiStored = false) ∧
    (process_notes [⟨0, "A4"⟩] ≠ [] ∧ ([0] : List ℚ) ≠ [] ∧ ([1] : List ℚ) ≠ [] ∧
      (process_data [⟨0, "A4"⟩] [0] [1] none).status = 500 ∧
      (process_data [⟨0, "A4"⟩] [0] [1] none).midiStored = false) := by
  have hne : process_notes [⟨0, "A4"⟩] ≠ [] := by
    simp [process_notes, filter_and_combine_notes, filterCombineLoop, smooth_pitch_data,
      pySlice, noteCountsOf, bumpCount, argmaxFirst, List.foldl]
  have h400 := (process_data_spec [] [] [] none).1 (Or.inl rfl)
  have h500 := (process_data_spec [⟨0, "A4"⟩] [0] [1] none).2.1 hne (by simp) (by simp) rfl
  exact ⟨⟨Or.inl rfl, h400⟩, ⟨hne, by simp, by simp, h500⟩⟩

/-- C10 (implicit safety): for every ascending onset sequence whose
onset times map to sample indices within the waveform
(`int(onset * sr) ≤ len y`), every envelope index `j / 512` that the
scans of `estimate_note_durations` can read is a valid index of the
amplitude envelope, which has `⌈len y / 512⌉` entries since it is built
with hop length 512. -/
theorem duration_scan_in_bounds (sq : ℚ → ℚ) (onsets : List ℚ) (y : List ℚ) (sr : ℕ)
    (hasc : List.Chain' (· < ·) onsets)
    (hb : ∀ o ∈ onsets, toSample o sr ≤ y.length) :
    ∀ j ∈ duration_scan_samples onsets y.length sr,
      j / 512 < (calculate_amplitude_envelope sq y sr 512).length := by
  intro j hj
  rw [length_amplitude_envelope _ _ _ _ (by norm_num)]
  have hjL : j < y.length := by
    rw [duration_scan_samples] at hj
    simp only [List.mem_append, List.mem_flatMap, List.mem_range] at hj
    rcases hj with ⟨i, hi, hji⟩ | hj
    · have hi1 : i + 1 < onsets.length := by omega
      have hnext : onsets.getD (i + 1) 0 ∈ onsets := getD_mem_of_lt _ _ _ hi1
      exact lt_of_lt_of_le (lt_of_mem_pyRange (by norm_num) hji) (hb _ hnext)
    · by_cases h0 : 0 < onsets.length
      · rw [if_pos h0] at hj
        exact lt_of_mem_pyRange (by norm_num) hj
      · rw [if_neg h0] at hj
        exact absurd hj (List.not_mem_nil j)
  omega

theorem duration_scan_in_bounds_witness :
    List.Chain' (· < ·) ([0, 1] : List ℚ) ∧
    (∀ o ∈ ([0, 1] : List ℚ), toSample o 1 ≤ ([0] : List ℚ).length) ∧
    (0 : ℕ) ∈ duration_scan_samples [0, 1] ([0] : List ℚ).length 1 ∧
    (0 : ℕ) / 512 < (calculate_amplitude_envelope (fun x => x) [0] 1 512).length := by
  have h1 : List.Chain' (· < ·) ([0, 1] : List ℚ) :=
    List.chain'_cons.mpr ⟨by norm_num, List.chain'_singleton 1⟩
  have h2 : ∀ o ∈ ([0, 1] : List ℚ), toSample o 1 ≤ ([0] : List ℚ).length := by
    norm_num [toSample, pyInt]
  have h3 : (0 : ℕ) ∈ duration_scan_samples [0, 1] ([0] : List ℚ).length 1 := by
    norm_num [duration_scan_samples, toSample, pyInt, pyRange, pyRangeAux]
  exact ⟨h1, h2, h3, duration_scan_in_bounds (fun x => x) [0, 1] [0] 1 h1 h2 0 h3⟩

theorem le_foldr_max (xs : List ℕ) : ∀ x ∈ xs, x ≤ xs.foldr max 0 := by
  induction xs with
  | nil =>
    intro x hx
    exact absurd hx (List.not_mem_nil x)
  | cons y ys ih =>
    intro x hx
    rw [List.foldr_cons]
    rcases List.mem_cons.mp hx with rfl | hx
    · exact le_max_left _ _
    · exact le_trans (ih x hx) (le_max_right _ _)

theorem foldr_max_attained (xs : List ℕ) : xs.foldr max 0 = 0 ∨ xs.foldr max 0 ∈ xs := by
  induction xs with
  | nil => exact Or.inl rfl
  | cons y ys ih =>
    rw [List.foldr_cons]
    rcases le_or_lt (ys.foldr max 0) y with h | h
    · right
      rw [max_eq_left h]
      exact List.mem_cons_self y ys
    · rcases ih with h0 | hm
      · exact absurd h (by omega)
      · right
        rw [max_eq_right (le_of_lt h)]
        exact List.mem_cons_of_mem y hm

theorem maxSnd_attained (cs : List (String × ℕ)) (h : maxSnd cs ≠ 0) :
    ∃ q ∈ cs, q.2 = maxSnd cs := by
  rw [maxSnd] at h ⊢
  rcases foldr_max_attained (cs.map fun p => p.2) with h0 | hm
  · exact absurd h0 h
  · obtain ⟨q, hq, hqe⟩ := List.mem_map.mp hm
    exact ⟨q, hq, hqe⟩

theorem maxSnd_cons (q : String × ℕ) (cs : List (String × ℕ)) :
    maxSnd (q :: cs) = max q.2 (maxSnd cs) := by
  rw [maxSnd, maxSnd, List.map_cons, List.foldr_cons]

theorem foldl_pick_eq (cs : List (String × ℕ)) : ∀ p : String × ℕ,
    cs.foldl (fun acc q => if acc.2 < q.2 then q else acc) p =
      if maxSnd cs ≤ p.2 then p else (cs.find? fun q => q.2 == maxSnd cs).getD p := by
  induction cs with
  | nil =>
    intro p
    have h0 : maxSnd ([] : List (String × ℕ)) = 0 := rfl
    rw [h0, if_pos (Nat.zero_le _)]
    rfl
  | cons q cs ih =>
    intro p
    rw [List.foldl_cons]
    by_cases hpq : p.2 < q.2
    · rw [if_pos hpq, ih q]
      by_cases hm : maxSnd cs ≤ q.2
      · rw [if_pos hm]
        have hM : maxSnd (q :: cs) = q.2 := by rw [maxSnd_cons]; omega
        rw [if_neg (by rw [hM]; omega)]
        rw [List.find?_cons_of_pos _ (by simp only [beq_iff_eq]; rw [hM])]
        rfl
      · rw [if_neg hm]
        have hM : maxSnd (q :: cs) = maxSnd cs := by rw [maxSnd_cons]; omega
        rw [if_neg (by rw [hM]; omega)]
        rw [List.find?_cons_of_neg _ (by simp only [beq_iff_eq]; rw [hM]; omega), hM]
        have hsome : (cs.find? fun r => r.2 == maxSnd cs).isSome := by
          apply List.find?_isSome.mpr
          obtain ⟨r, hr, hre⟩ := maxSnd_attained cs (by omega)
          exact ⟨r, hr, by simp [hre]⟩
        obtain ⟨r, hr⟩ := Option.isSome_iff_exists.mp hsome
        rw [hr]
        rfl
    · rw [if_neg hpq, ih p]
      by_cases hm : maxSnd cs ≤ p.2
      · rw [if_pos hm]
        rw [if_pos (by rw [maxSnd_cons]; omega)]
      · rw [if_neg hm]
        have hM : maxSnd (q :: cs) = maxSnd cs := by rw [maxSnd_cons]; omega
        rw [if_neg (by rw [hM]; omega)]
        rw [List.find?_cons_of_neg _ (by simp only [beq_iff_eq]; rw [hM]; omega), hM]

theorem argmaxFirst_eq_find? (cs : List (String × ℕ)) (h : cs ≠ []) :
    argmaxFirst cs = ((cs.find? fun q => q.2 == maxSnd cs).getD ("", 0)).1 := by
  cases cs with
  | nil => exact absurd rfl h
  | cons p rest =>
    rw [argmaxFirst, foldl_pick_eq rest p]
    by_cases hm : maxSnd rest ≤ p.2
    · rw [if_pos hm]
      have hM : maxSnd (p :: rest) = p.2 := by rw [maxSnd_cons]; omega
      rw [List.find?_cons_of_pos _ (by simp only [beq_iff_eq]; rw [hM])]
      rfl
    · rw [if_neg hm]
      have hM : maxSnd (p :: rest) = maxSnd rest := by rw [maxSnd_cons]; omega
      rw [List.find?_cons_of_neg _ (by simp only [beq_iff_eq]; rw [hM]; omega), hM]
      have hsome : (rest.find? fun r => r.2 == maxSnd rest).isSome := by
        apply List.find?_isSome.mpr
        obtain ⟨r, hr, hre⟩ := maxSnd_attained rest (by omega)
        exact ⟨r, hr, by simp [hre]⟩
      obtain ⟨r, hr⟩ := Option.isSome_iff_exists.mp hsome
      rw [hr]
      rfl

theorem mem_fdedup (a : String) : ∀ l : List String, a ∈ fdedup l ↔ a ∈ l := by
  intro l
  induction l using fdedup.induct with
  | case1 => simp [fdedup]
  | case2 x xs ih =>
    rw [fdedup]
    simp only [List.mem_cons, ih, List.mem_filter, bne_iff_ne]
    by_cases hax : a = x
    · simp [hax]
    · simp [hax]

theorem fdedup_nodup : ∀ l : List String, (fdedup l).Nodup := by
  intro l
  induction l using fdedup.induct with
  | case1 => simp [fdedup]
  | case2 x xs ih =>
    rw [fdedup]
    refine List.nodup_cons.mpr ⟨?_, ih⟩
    intro hx
    have hmem := (mem_fdedup x _).mp hx
    have := (List.mem_filter.mp hmem).2
    simp at this

theorem fdedup_append_singleton (n : String) : ∀ l : List String,
    fdedup (l ++ [n]) = if n ∈ l then fdedup l else fdedup l ++ [n] := by
  intro l
  induction l using fdedup.induct with
  | case1 =>
    rw [if_neg (List.not_mem_nil n)]
    simp [fdedup]
  | case2 x xs ih =>
    by_cases hnx : n = x
    · subst hnx
      rw [List.cons_append, fdedup, if_pos (List.mem_cons_self n xs), fdedup]
      have hfil : (xs ++ [n]).filter (fun y => y != n) = xs.filter fun y => y != n := by
        rw [List.filter_append]
        simp
      rw [hfil]
    · have hmemiff : n ∈ xs.filter (fun y => y != x) ↔ n ∈ xs := by
        simp [List.mem_filter, bne_iff_ne, hnx]
      rw [List.cons_append, fdedup]
      have hfil : (xs ++ [n]).filter (fun y => y != x) = xs.filter (fun y => y != x) ++ [n] := by
        rw [List.filter_append]
        simp [hnx]
      rw [hfil, ih]
      by_cases hmem : n ∈ xs
      · rw [if_pos (hmemiff.mpr hmem), if_pos (List.mem_cons_of_mem x hmem), fdedup]
      · rw [if_neg (fun h => hmem (hmemiff.mp h)), if_neg (by simp [hnx, hmem]), fdedup,
          List.cons_append]

theorem bumpCount_map_not_mem (f : String → ℕ) (n : String) : ∀ ks : List String, n ∉ ks →
    bumpCount (ks.map fun k => (k, f k)) n = (ks.map fun k => (k, f k)) ++ [(n, 1)] := by
  intro ks
  induction ks with
  | nil =>
    intro _
    rfl
  | cons k ks ih =>
    intro hn
    rw [List.map_cons]
    simp only [bumpCount]
    rw [if_neg (fun h => hn (by simp [h]))]
    rw [ih fun h => hn (List.mem_cons_of_mem k h)]
    rfl

theorem bumpCount_map_mem (f : String → ℕ) (n : String) : ∀ ks : List String, ks.Nodup → n ∈ ks →
    bumpCount (ks.map fun k => (k, f k)) n =
      ks.map fun k => (k, if k = n then f k + 1 else f k) := by
  intro ks
  induction ks with
  | nil =>
    intro _ hn
    exact absurd hn (List.not_mem_nil n)
  | cons k ks ih =>
    intro hnd hn
    rw [List.map_cons, List.map_cons]
    simp only [bumpCount]
    by_cases hkn : k = n
    · rw [if_pos hkn]
      have hkn' : n ∉ ks := hkn ▸ (List.nodup_cons.mp hnd).1
      congr 1
      · rw [if_pos hkn]
      · apply List.map_congr_left
        intro a ha
        rw [if_neg (fun h : a = n => hkn' (h ▸ ha))]
    · rw [if_neg hkn]
      have hn' : n ∈ ks := by
        rcases List.mem_cons.mp hn with h | h
        · exact absurd h.symm hkn
        · exact h
      rw [ih (List.nodup_cons.mp hnd).2 hn']
      congr 1
      rw [if_neg hkn]

theorem noteCountsOf_eq : ∀ l : List String,
    noteCountsOf l = (fdedup l).map fun k => (k, l.count k) := by
  intro l
  induction l using List.reverseRecOn with
  | nil => simp [noteCountsOf, fdedup]
  | append_singleton l n ih =>
    have step : noteCountsOf (l ++ [n]) = bumpCount (noteCountsOf l) n := by
      rw [noteCountsOf, noteCountsOf, List.foldl_append]
      rfl
    rw [step, ih, fdedup_append_singleton]
    by_cases hmem : n ∈ l
    · rw [if_pos hmem]
      have hnfd : n ∈ fdedup l := (mem_fdedup n l).mpr hmem
      rw [bumpCount_map_mem _ _ _ (fdedup_nodup l) hnfd]
      apply List.map_congr_left
      intro k hk
      rw [List.count_append]
      by_cases hkn : k = n
      · subst hkn
        rw [if_pos rfl]
        simp
      · rw [if_neg hkn]
        simp [List.count_cons, hkn]
    · rw [if_neg hmem]
      have hnfd : n ∉ fdedup l := fun h => hmem ((mem_fdedup n l).mp h)
      rw [bumpCount_map_not_mem _ _ _ hnfd, List.map_append]
      congr 1
      · apply List.map_congr_left
        intro k hk
        have hk' : k ∈ l := (mem_fdedup k l).mp hk
        have hkn : k ≠ n := fun h => hmem (h ▸ hk')
        rw [List.count_append]
        simp [List.count_cons, hkn]
      · have h0 : l.count n = 0 := List.count_eq_zero.mpr hmem
        simp [List.count_append, h0]

theorem maxSnd_map_counts (l : List String) :
    maxSnd ((fdedup l).map fun k => (k, l.count k)) = maxCount l := by
  have h1 : maxSnd ((fdedup l).map fun k => (k, l.count k)) =
      ((fdedup l).map fun k => l.count k).foldr max 0 := by
    rw [maxSnd, List.map_map]
    rfl
  rw [h1, maxCount]
  apply le_antisymm
  · rcases foldr_max_attained ((fdedup l).map fun k => l.count k) with h0 | hm
    · rw [h0]
      exact Nat.zero_le _
    · obtain ⟨k, hk, hke⟩ := List.mem_map.mp hm
      rw [← hke]
      exact le_foldr_max _ _ (List.mem_map.mpr ⟨k, (mem_fdedup k l).mp hk, rfl⟩)
  · rcases foldr_max_attained (l.map fun n => l.count n) with h0 | hm
    · rw [h0]
      exact Nat.zero_le _
    · obtain ⟨k, hk, hke⟩ := List.mem_map.mp hm
      rw [← hke]
      exact le_foldr_max _ _ (List.mem_map.mpr ⟨k, (mem_fdedup k l).mpr hk, rfl⟩)

theorem find?_filter_ne (p : String → Bool) (x : String) (hx : p x = false) :
    ∀ xs : List String, (xs.filter fun y => y != x).find? p = xs.find? p := by
  intro xs
  induction xs with
  | nil => rfl
  | cons y ys ih =>
    by_cases hyx : y = x
    · subst hyx
      rw [List.filter_cons, if_neg (by simp)]
      rw [ih, List.find?_cons_of_neg _ (by simp [hx])]
    · rw [List.filter_cons, if_pos (by simp [hyx])]
      by_cases hpy : p y = true
      · rw [List.find?_cons_of_pos _ hpy, List.find?_cons_of_pos _ hpy]
      · have hpy' : ¬ p y = true := hpy
        rw [List.find?_cons_of_neg _ hpy', List.find?_cons_of_neg _ hpy', ih]

theorem find?_fdedup (p : String → Bool) : ∀ l : List String,
    (fdedup l).find? p = l.find? p := by
  intro l
  induction l using fdedup.induct with
  | case1 => simp [fdedup]
  | case2 x xs ih =>
    rw [fdedup]
    by_cases hpx : p x = true
    · rw [List.find?_cons_of_pos _ hpx, List.find?_cons_of_pos _ hpx]
    · have hpx' : p x = false := by
        revert hpx
        cases p x <;> simp
      rw [List.find?_cons_of_neg _ (by simp [hpx']), List.find?_cons_of_neg _ (by simp [hpx']),
        ih, find?_filter_ne p x hpx' xs]

theorem argmaxFirst_noteCountsOf (l : List String) (hl : l ≠ []) :
    argmaxFirst (noteCountsOf l) = firstMax l := by
  rw [noteCountsOf_eq]
  have hne : ((fdedup l).map fun k => (k, l.count k)) ≠ [] := by
    cases hl2 : l with
    | nil => exact absurd hl2 hl
    | cons a as =>
      rw [fdedup]
      simp
  rw [argmaxFirst_eq_find? _ hne, maxSnd_map_counts, List.find?_map]
  have hcomp : ((fun q : String × ℕ => q.2 == maxCount l) ∘ fun k => (k, l.count k)) =
      fun k => l.count k == maxCount l := rfl
  rw [hcomp, find?_fdedup, firstMax]
  cases hfind : l.find? fun k => l.count k == maxCount l with
  | none => rfl
  | some a => rfl

/-- C3: with window size 5, `smooth_pitch_data` preserves the input
length, and the `i`-th output record has time equal to the arithmetic
mean of the times in the clipped window `[max(i-2,0), min(i+3, n))`
(natural subtraction is the `max` with 0) and note equal to the
majority note of that window, ties broken by first-encountered
insertion order (`firstMax`). -/
theorem smooth_pitch_data_spec (nd : List NoteRec) :
    (smooth_pitch_data nd 5).length = nd.length ∧
    ∀ i, i < nd.length →
      (smooth_pitch_data nd 5).getD i ⟨0, ""⟩ =
        ⟨((pySlice nd (i - 2) (min (i + 3) nd.length)).map fun nr => nr.time).sum /
            ((pySlice nd (i - 2) (min (i + 3) nd.length)).length : ℚ),
         firstMax ((pySlice nd (i - 2) (min (i + 3) nd.length)).map fun nr => nr.note)⟩ := by
  constructor
  · rw [smooth_pitch_data, List.length_map, List.length_range]
  · intro i hi
    rw [smooth_pitch_data, getD_map_range _ _ _ hi]
    have h1 : i - 5 / 2 = i - 2 := by norm_num
    have h2 : min (i + 5 / 2 + 1) nd.length = min (i + 3) nd.length := by
      norm_num
    simp only [h1, h2]
    have hwne : ((pySlice nd (i - 2) (min (i + 3) nd.length)).map fun nr => nr.note) ≠ [] := by
      have hlen : (pySlice nd (i - 2) (min (i + 3) nd.length)).length
          = min (i + 3) nd.length - (i - 2) := by
        rw [pySlice, List.length_take, List.length_drop]
        omega
      intro h
      have hlen0 := congrArg List.length h
      rw [List.length_map, hlen, List.length_nil] at hlen0
      omega
    rw [argmaxFirst_noteCountsOf _ hwne]

theorem smooth_pitch_data_spec_witness :
    (0 : ℕ) < ([⟨0, "A4"⟩, ⟨1, "A4"⟩, ⟨2, "B4"⟩] : List NoteRec).length ∧
    (smooth_pitch_data [⟨0, "A4"⟩, ⟨1, "A4"⟩, ⟨2, "B4"⟩] 5).getD 0 ⟨0, ""⟩ =
      ⟨((pySlice ([⟨0, "A4"⟩, ⟨1, "A4"⟩, ⟨2, "B4"⟩] : List NoteRec) (0 - 2)
            (min (0 + 3) ([⟨0, "A4"⟩, ⟨1, "A4"⟩, ⟨2, "B4"⟩] : List NoteRec).length)).map
          fun nr => nr.time).sum /
          ((pySlice ([⟨0, "A4"⟩, ⟨1, "A4"⟩, ⟨2, "B4"⟩] : List NoteRec) (0 - 2)
            (min (0 + 3) ([⟨0, "A4"⟩, ⟨1, "A4"⟩, ⟨2, "B4"⟩] : List NoteRec).length)).length : ℚ),
       firstMax ((pySlice ([⟨0, "A4"⟩, ⟨1, "A4"⟩, ⟨2, "B4"⟩] : List NoteRec) (0 - 2)
            (min (0 + 3) ([⟨0, "A4"⟩, ⟨1, "A4"⟩, ⟨2, "B4"⟩] : List NoteRec).length)).map
          fun nr => nr.note)⟩ :=
  ⟨by decide, (smooth_pitch_data_spec [⟨0, "A4"⟩, ⟨1, "A4"⟩, ⟨2, "B4"⟩]).2 0 (by decide)⟩
